import Mathlib

/-!
Verification of the graph-construction pipeline and selection model of the
RAFT relationship-visualization app (src/components/NetworkGraph.jsx).

Strings are modelled as lists of characters (`Str`), and the JavaScript
string primitives used by the source (split, trim, includes, parseInt,
template literals, Array.prototype.join) are given direct executable
models.  All definitions are translated from the source file; deviations
forced by the host language are noted where they occur.
-/

namespace Raft

/-- Strings are modelled as lists of characters. -/
abbrev Str := List Char

/-- Model of JavaScript String.prototype.split with a single-character
separator: "".split(sep) = [""], separators at the ends produce empty
segments, exactly as in JS. -/
def jsSplit (sep : Char) : Str → List Str
  | [] => [[]]
  | c :: rest =>
    match jsSplit sep rest with
    | [] => [[]]
    | s :: ss => if c = sep then [] :: s :: ss else (c :: s) :: ss

/-- Model of JavaScript String.prototype.trim: strip whitespace from both
ends. -/
def jsTrim (s : Str) : Str :=
  ((s.dropWhile Char.isWhitespace).reverse.dropWhile Char.isWhitespace).reverse

/-- Numeric value of a string of decimal digits (most significant first). -/
def digitsVal (s : Str) : Nat :=
  s.foldl (fun acc c => 10 * acc + (c.toNat - 48)) 0

/-- Longest digit segment at the start of a string. -/
def leadDigits (s : Str) : Str := s.takeWhile Char.isDigit

/-- Model of JavaScript parseInt(s, 10): skip leading whitespace, accept an
optional sign, read the longest digit run; NaN (here: none) when no digit
follows.  (JS loses precision past 2^53; no input in this development gets
near that, so the value is modelled exactly.) -/
def parseIntJS (s : Str) : Option Int :=
  match s.dropWhile Char.isWhitespace with
  | [] => none
  | c :: rest =>
    if c = '-' then
      if leadDigits rest = [] then none else some (-(digitsVal (leadDigits rest) : Int))
    else if c = '+' then
      if leadDigits rest = [] then none else some ((digitsVal (leadDigits rest) : Int))
    else
      if leadDigits (c :: rest) = [] then none
      else some ((digitsVal (leadDigits (c :: rest)) : Int))

/-- Decimal digit expansion of a natural number, fuel-indexed so that the
kernel can evaluate it.  The fuel argument strictly exceeds the number of
recursive steps whenever it exceeds the number itself. -/
def natToCharsAux : Nat → Nat → Str
  | 0, _ => []
  | fuel + 1, n =>
    if n < 10 then [Char.ofNat (48 + n)]
    else natToCharsAux fuel (n / 10) ++ [Char.ofNat (48 + n % 10)]

/-- Model of JavaScript String(n) for a nonnegative integer n. -/
def natToChars (n : Nat) : Str := natToCharsAux (n + 1) n

/-- Model of JavaScript String(i) for an integer i. -/
def intToChars (i : Int) : Str :=
  if i < 0 then '-' :: natToChars i.natAbs else natToChars i.toNat

/-- The en dash character, the only dash variant the source normalizes
(the replace call in loadCSVData, whose comment reads "Normalize en dashes
to hyphens"). -/
def enDash : Char := Char.ofNat 8211

/-- The em dash character (not normalized by the source). -/
def emDash : Char := Char.ofNat 8212

/-- Model of interacts.replace(en-dash-regex-global, "-"): a global
single-character replacement is a character map. -/
def normalizeDashes (s : Str) : Str :=
  s.map (fun c => if c = enDash then '-' else c)

/-- Directed edge as pushed into the links array by loadCSVData. -/
structure Link where
  source : Str
  target : Str
  relationship : Str
  tension : Str
deriving DecidableEq

/-- Row record as read off one parsed CSV data row. -/
structure Row where
  serial : Str
  category : Str
  actor : Str
  actorDescription : Str
  interactsWith : Str
  relationshipType : Str
  tensions : Str
  relevance : Str
deriving DecidableEq

/-- Model of the range for-loop in loadCSVData
(for (let i = startNum; i <= endNum; i++) links.push(...)), fuel-indexed by
the iteration count so the kernel can evaluate it. -/
def pushRangeAux (mk : Int → Link) : Nat → Int → List Link
  | 0, _ => []
  | fuel + 1, i => mk i :: pushRangeAux mk fuel (i + 1)

/-- Links pushed by the range loop running from a to b inclusive. -/
def pushRange (a b : Int) (mk : Int → Link) : List Link :=
  pushRangeAux mk (b + 1 - a).toNat a

/-- Link literal as built in loadCSVData. -/
def mkLink (sourceId target rel ten : Str) : Link :=
  ⟨sourceId, target, rel, ten⟩

/-- Body of the per-segment forEach in loadCSVData: trim the segment, skip
it when empty, expand it as an inclusive range when it contains a hyphen
(destructuring only the first two pieces of the split, each side parsed
with parseInt; nothing is pushed when either bound parses to NaN), and
otherwise push the trimmed text verbatim as a single target. -/
def segmentLinks (sourceId rel ten : Str) (item : Str) : List Link :=
  let trimmed := jsTrim item
  if trimmed = [] then []
  else if trimmed.contains '-' then
    match jsSplit '-' trimmed with
    | s0 :: s1 :: _ =>
      match parseIntJS (jsTrim s0), parseIntJS (jsTrim s1) with
      | some startNum, some endNum =>
        pushRange startNum endNum (fun i => mkLink sourceId (intToChars i) rel ten)
      | _, _ => []
    | _ => []
  else [mkLink sourceId trimmed rel ten]

/-- Links contributed by one row: guard on the truthiness of the
InteractsWithSerials cell, normalize en dashes, split on semicolons, and
expand each segment. -/
def rowLinks (row : Row) : List Link :=
  if row.interactsWith = [] then []
  else
    let interacts := normalizeDashes row.interactsWith
    ((jsSplit ';' interacts).map
      (segmentLinks row.serial row.relationshipType row.tensions)).flatten

/-- Deduplication key, the template literal source ++ "->" ++ target. -/
def linkKey (l : Link) : Str := l.source ++ '-' :: '>' :: l.target

/-- The dedup forEach of loadCSVData: a link is kept when its key has not
been seen, and its key is then added to the seen set. -/
def dedupAux (seen : List Str) : List Link → List Link
  | [] => []
  | l :: rest =>
    if linkKey l ∈ seen then dedupAux seen rest
    else l :: dedupAux (linkKey l :: seen) rest

/-- Deduplicated links (uniqueLinks in the source). -/
def dedupLinks (links : List Link) : List Link := dedupAux [] links

/-- Full edge list of loadCSVData: expand every row, then deduplicate. -/
def buildLinks (rows : List Row) : List Link :=
  dedupLinks ((rows.map rowLinks).flatten)

/-- Faction classification result of getNodeType. -/
inductive NodeType where
  | friendly
  | adversary
  | neutral
deriving DecidableEq

/-- Model of getNodeType: parseInt the id and compare against the fixed
bands; every NaN comparison is false, so unparsable ids fall through to
neutral. -/
def getNodeType (id : Str) : NodeType :=
  match parseIntJS id with
  | some nodeId =>
    if (1 ≤ nodeId ∧ nodeId ≤ 17) ∨ nodeId = 33 then .friendly
    else if 18 ≤ nodeId ∧ nodeId ≤ 32 then .adversary
    else .neutral
  | none => .neutral

/-- The friendlyIds array: [...Array(17).keys()].map(i => i + 1).concat([33]). -/
def friendlyIds : List Int :=
  ((List.range 17).map (fun i => (i : Int) + 1)) ++ [33]

/-- Model of Array.prototype.indexOf (returns -1 when absent). -/
def jsIndexOfAux (x : Int) (i : Int) : List Int → Int
  | [] => -1
  | y :: ys => if y = x then i else jsIndexOfAux x (i + 1) ys

/-- Index of x in l, JavaScript style. -/
def jsIndexOf (x : Int) (l : List Int) : Int := jsIndexOfAux x 0 l

/-- Rendering of the hsl template literal with the fixed 70% saturation. -/
def hsl (hue lightness : Int) : Str :=
  "hsl(".data ++ intToChars hue ++ ", 70%, ".data ++ intToChars lightness ++ "%)".data

/-- Model of getNodeColor.  The source first computes getNodeType and then
re-parses the id inside the friendly/adversary branches; those branches are
reached only when parseInt succeeded, so the catch-all here fires exactly
for the neutral type. -/
def getNodeColor (id : Str) : Str :=
  match getNodeType id, parseIntJS id with
  | .friendly, some nodeId => hsl 210 (30 + jsIndexOf nodeId friendlyIds * 3)
  | .adversary, some nodeId => hsl 0 (30 + (nodeId - 18) * 3)
  | _, _ => "#888888".data

/-- Graph node as built in loadCSVData. -/
structure Node where
  id : Str
  name : Str
  category : Str
  description : Str
  relevance : Str
  color : Str
deriving DecidableEq

/-- Node literal built from one row. -/
def mkNode (row : Row) : Node :=
  ⟨row.serial, row.actor, row.category, row.actorDescription, row.relevance,
   getNodeColor row.serial⟩

/-- Node list of loadCSVData: one node per row, in row order. -/
def buildNodes (rows : List Row) : List Node := rows.map mkNode

/-- Endpoint of a link as seen by handleNodeClick.  The layout engine
(external to this core) replaces each endpoint id with the matching node
object; an id with no matching node is kept as the raw string, and
JavaScript property access on a string yields undefined (modelled by the
Option results of the accessors below). -/
inductive Endpoint where
  | node : Node → Endpoint
  | raw : Str → Endpoint
deriving DecidableEq

/-- JavaScript .id access on an endpoint (undefined on a raw string). -/
def Endpoint.idOf : Endpoint → Option Str
  | .node n => some n.id
  | .raw _ => none

/-- JavaScript .name access on an endpoint. -/
def Endpoint.nameOf : Endpoint → Option Str
  | .node n => some n.name
  | .raw _ => none

/-- JavaScript .category access on an endpoint. -/
def Endpoint.categoryOf : Endpoint → Option Str
  | .node n => some n.category
  | .raw _ => none

/-- Link after endpoint resolution by the layout engine. -/
structure RLink where
  source : Endpoint
  target : Endpoint
  relationship : Str
  tension : Str
deriving DecidableEq

/-- Resolution of one endpoint id against the node list. -/
def resolveEndpoint (nodes : List Node) (id : Str) : Endpoint :=
  match nodes.find? (fun n => n.id == id) with
  | some n => .node n
  | none => .raw id

/-- Resolution of a built link. -/
def resolveLink (nodes : List Node) (l : Link) : RLink :=
  ⟨resolveEndpoint nodes l.source, resolveEndpoint nodes l.target,
   l.relationship, l.tension⟩

/-- The filter predicate of handleNodeClick:
link.source.id === node.id || link.target.id === node.id. -/
def isIncident (clickedId : Str) (rl : RLink) : Bool :=
  rl.source.idOf == some clickedId || rl.target.idOf == some clickedId

/-- Direction string for an edge whose source is the clicked node. -/
def toDir : Str := "to".data

/-- Direction string for an edge whose target is the clicked node. -/
def fromDir : Str := "from".data

/-- Entry of the edge-information list built by handleNodeClick. -/
structure EdgeInfo where
  direction : Str
  otherNodeId : Option Str
  otherNodeName : Option Str
  otherNodeCategory : Option Str
  relationship : Str
  tension : Str
deriving DecidableEq

/-- Body of the map in handleNodeClick: classify the edge by whether the
clicked node is its source, and read the fields of the other endpoint. -/
def edgeInfoOf (clickedId : Str) (rl : RLink) : EdgeInfo :=
  let isSource := rl.source.idOf == some clickedId
  let other := if isSource then rl.target else rl.source
  ⟨if isSource then toDir else fromDir,
   other.idOf, other.nameOf, other.categoryOf, rl.relationship, rl.tension⟩

/-- Model of handleNodeClick: filter the resolved links down to those
incident to the clicked node and map each to its edge information. -/
def handleNodeClick (nodes : List Node) (links : List Link) (clicked : Node) :
    List EdgeInfo :=
  ((links.map (resolveLink nodes)).filter (isIncident clicked.id)).map
    (edgeInfoOf clicked.id)

/-- Category of a neighborhood entry as read in generateEnhancedDescription:
edge.otherNodeCategory || 'Other' (both undefined and the empty string are
falsy). -/
def catOf (e : EdgeInfo) : Str :=
  match e.otherNodeCategory with
  | some c => if c = [] then "Other".data else c
  | none => "Other".data

/-- One step of categories[cat] = (categories[cat] || 0) + 1 on a property
map kept in insertion order: an existing key is incremented in place (its
position is unchanged, as in JavaScript), a new key is appended. -/
def upsert : List (Str × Nat) → Str → List (Str × Nat)
  | [], k => [(k, 1)]
  | p :: ps, k => if p.1 = k then (p.1, p.2 + 1) :: ps else p :: upsert ps k

/-- The category-count object built by the forEach over the combined
outgoing-then-incoming edge list. -/
def countCats (edges : List EdgeInfo) : List (Str × Nat) :=
  edges.foldl (fun m e => upsert m (catOf e)) []

/-- Whether a string is a canonical array-index property key in the sense
of the JavaScript object model (all digits, no leading zero except "0",
value below 2^32 - 1).  Object.entries lists such keys first, in ascending
numeric order. -/
def isArrayIndexKey (k : Str) : Bool :=
  decide (k ≠ []) && k.all Char.isDigit &&
    (decide (k = ['0']) || decide (k.head? ≠ some '0')) &&
    decide (digitsVal k < 4294967295)

/-- Insertion step of an ascending sort of index keys by numeric value. -/
def insertIdxAsc (x : Str × Nat) : List (Str × Nat) → List (Str × Nat)
  | [] => [x]
  | y :: ys =>
    if digitsVal x.1 < digitsVal y.1 then x :: y :: ys else y :: insertIdxAsc x ys

/-- Ascending sort of index-key entries by numeric key value. -/
def sortIdxAsc (l : List (Str × Nat)) : List (Str × Nat) :=
  l.foldr insertIdxAsc []

/-- Model of Object.entries on the category map: array-index keys first in
ascending numeric order, then the remaining keys in insertion order. -/
def jsObjEntries (m : List (Str × Nat)) : List (Str × Nat) :=
  sortIdxAsc (m.filter (fun p => isArrayIndexKey p.1)) ++
    m.filter (fun p => !isArrayIndexKey p.1)

/-- Insertion step of a stable descending sort by count.  The sort below
inserts from the right, so each element is placed before the first element
of smaller or equal count: elements of equal count keep their input order. -/
def insertCntDesc (x : Str × Nat) : List (Str × Nat) → List (Str × Nat)
  | [] => [x]
  | y :: ys => if y.2 ≤ x.2 then x :: y :: ys else y :: insertCntDesc x ys

/-- Stable descending sort by count, modelling
Array.prototype.sort((a, b) => b[1] - a[1]), which is stable in JavaScript;
any stable sort realizes the same output. -/
def sortCntDesc (l : List (Str × Nat)) : List (Str × Nat) :=
  l.foldr insertCntDesc []

/-- The top three category/count pairs selected by the slice(0, 3). -/
def topCats (edges : List EdgeInfo) : List (Str × Nat) :=
  (sortCntDesc (jsObjEntries (countCats edges))).take 3

/-- Rendering of one pair as the template literal count ++ " " ++ category. -/
def renderCat (p : Str × Nat) : Str := natToChars p.2 ++ ' ' :: p.1

/-- Model of Array.prototype.join. -/
def jsJoin (sep : Str) : List Str → Str
  | [] => []
  | [x] => x
  | x :: xs => x ++ sep ++ jsJoin sep xs

/-- The catSummary expression of generateEnhancedDescription. -/
def catSummary (edges : List EdgeInfo) : Str :=
  jsJoin ", ".data ((topCats edges).map renderCat)

/-- Model of generateEnhancedDescription for a non-null node.  String
concatenations follow the template literals of the source; the two-newline
separators are written out explicitly. -/
def generateEnhancedDescription (node : Node) (nodeEdges : List EdgeInfo) : Str :=
  let outgoingEdges := nodeEdges.filter (fun e => e.direction == toDir)
  let incomingEdges := nodeEdges.filter (fun e => e.direction == fromDir)
  let base :=
    (if node.description = [] then "No description available.".data
     else node.description) ++ ['\n', '\n']
  let base := base ++
    (if node.relevance = [] then []
     else "**Strategic Relevance:** ".data ++ node.relevance ++ ['\n', '\n'])
  if 0 < outgoingEdges.length ∨ 0 < incomingEdges.length then
    let pos :=
      if 0 < outgoingEdges.length ∧ 0 < incomingEdges.length then
        node.name ++ " serves as a key intermediary node, actively engaging ".data ++
          natToChars outgoingEdges.length ++
          " entities while being influenced by ".data ++
          natToChars incomingEdges.length ++ " actors. ".data
      else if 0 < outgoingEdges.length then
        node.name ++ " projects influence toward ".data ++
          natToChars outgoingEdges.length ++ " entities. ".data
      else
        node.name ++ " receives influence from ".data ++
          natToChars incomingEdges.length ++ " actors. ".data
    let cs := catSummary (outgoingEdges ++ incomingEdges)
    base ++ "**Network Position:** ".data ++ pos ++
      (if cs = [] then []
       else "Primary connections include: ".data ++ cs ++ ".".data)
  else base

/-- Error record of the CSV library (papaparse reports field-count
mismatches in its errors array). -/
structure PapaErr where
  code : Str
deriving DecidableEq

/-- Field split of one CSV line.  Quote handling of the CSV library is not
modelled; every input exercised below is quote-free. -/
def splitFields (line : Str) : List Str := jsSplit ',' line

/-- Model of Papa.parse(csv, header: true, skipEmptyLines: true,
dynamicTyping: false): break the text into lines, skip empty ones, read
the first line as the header, and zip every further line with the header
(extra fields are dropped into __parsed_extra, which the loader never
reads; missing fields stay undefined).  A line whose field count differs
from the header contributes a TooFewFields or TooManyFields record to the
errors array. -/
def papaParse (csv : Str) : List (List (Str × Str)) × List PapaErr :=
  match (jsSplit '\n' csv).filter (fun l => l ≠ []) with
  | [] => ([], [])
  | headerLine :: dataLines =>
    let header := splitFields headerLine
    let fieldRows := dataLines.map splitFields
    let records := fieldRows.map (fun fs => header.zip fs)
    let errs := fieldRows.foldr
      (fun fs acc =>
        if fs.length < header.length then (⟨"TooFewFields".data⟩ : PapaErr) :: acc
        else if header.length < fs.length then (⟨"TooManyFields".data⟩ : PapaErr) :: acc
        else acc) []
    (records, errs)

/-- JavaScript bracket access row[key] on a parsed record.  A missing field
is undefined; it is modelled by the empty string, which behaves identically
to undefined in every use the loader makes of a field (truthiness tests and
parseInt both treat them alike). -/
def getField (rec : List (Str × Str)) (k : Str) : Str :=
  match rec.find? (fun p => p.1 == k) with
  | some p => p.2
  | none => []

/-- Row record read off one parsed CSV record by the column names used in
loadCSVData. -/
def rowOfRecord (rec : List (Str × Str)) : Row :=
  ⟨getField rec "Serial".data, getField rec "Category".data,
   getField rec "Actor".data, getField rec "ActorDescription".data,
   getField rec "InteractsWithSerials".data, getField rec "RelationshipType".data,
   getField rec "Tensions".data, getField rec "Relevance".data⟩

/-- Graph handed to the rendering engine. -/
structure GraphData where
  nodes : List Node
  links : List Link
deriving DecidableEq

/-- Model of loadCSVData: parse the text, keep only the data component of
the parse result (the destructuring const data = ... discards the errors
array), and build the node and deduplicated link lists. -/
def loadCSVData (csv : Str) : GraphData :=
  let parsed := papaParse csv
  let data := parsed.1.map rowOfRecord
  ⟨buildNodes data, buildLinks data⟩

/-- Count stored under a key in a property map, 0 when the key is absent.
Specification helper for reasoning about the category counts; not part of
the source model. -/
def lookupCnt : List (Str × Nat) → Str → Nat
  | [], _ => 0
  | p :: ps, k => if p.1 = k then p.2 else lookupCnt ps k

/-! Concrete fixtures used by the closed witnesses and counterexamples. -/

/-- Row whose interaction cell is the reversed range 5-3. -/
def exRow53 : Row :=
  ⟨"9".data, "c".data, "A".data, "d".data, "5-3".data, "rel".data, "ten".data, "rv".data⟩

/-- Row whose interaction cell repeats the single target 2. -/
def exRow22 : Row :=
  ⟨"1".data, "c".data, "A".data, "d".data, "2;2".data, "rel".data, "ten".data, "rv".data⟩

/-- Row with a non-numeric segment followed by a numeric one. -/
def exRowAbc : Row :=
  ⟨"1".data, "c".data, "A".data, "d".data, "abc;2".data, "rel".data, "ten".data, "rv".data⟩

/-- Row with a range segment whose right bound is unparsable. -/
def exRowBadRange : Row :=
  ⟨"1".data, "c".data, "A".data, "d".data, "1-x;2".data, "rel".data, "ten".data, "rv".data⟩

/-- Row writing the range 1..3 with a plain hyphen. -/
def exRowHyphen : Row :=
  ⟨"9".data, "c".data, "A".data, "d".data, "1-3".data, "rel".data, "ten".data, "rv".data⟩

/-- Row writing the range 1..3 with an en dash. -/
def exRowEnDash : Row :=
  ⟨"9".data, "c".data, "A".data, "d".data, '1' :: enDash :: ['3'], "rel".data, "ten".data, "rv".data⟩

/-- Row writing the range 1..3 with an em dash. -/
def exRowEmDash : Row :=
  ⟨"9".data, "c".data, "A".data, "d".data, '1' :: emDash :: ['3'], "rel".data, "ten".data, "rv".data⟩

/-- Sample node with id 1. -/
def exNode1 : Node :=
  ⟨"1".data, "Alpha".data, "cat1".data, "d1".data, "rv1".data, getNodeColor "1".data⟩

/-- Sample node with id 2. -/
def exNode2 : Node :=
  ⟨"2".data, "Beta".data, "cat2".data, "d2".data, "rv2".data, getNodeColor "2".data⟩

/-- Link from node 1 to node 2. -/
def exLink12 : Link := ⟨"1".data, "2".data, "rel".data, "ten".data⟩

/-- Dangling link from node 1 to the absent id 99. -/
def exLink199 : Link := ⟨"1".data, "99".data, "rel".data, "ten".data⟩

/-- Self-loop link on node 2. -/
def exLink22 : Link := ⟨"2".data, "2".data, "rel".data, "ten".data⟩

/-- Neighborhood entry whose neighbor has no category. -/
def exEdgeNoCat : EdgeInfo :=
  ⟨toDir, some "9".data, some "X".data, none, "rel".data, "ten".data⟩

/-- Neighborhood entry whose neighbor category is the integer-like string 10. -/
def exEdgeCat10 : EdgeInfo :=
  ⟨toDir, some "5".data, some "X".data, some "10".data, "rel".data, "ten".data⟩

/-- Neighborhood entry whose neighbor category is the integer-like string 2. -/
def exEdgeCat2 : EdgeInfo :=
  ⟨toDir, some "6".data, some "Y".data, some "2".data, "rel".data, "ten".data⟩

/-! Supporting lemmas about the string primitives. -/

theorem whitespace_cases {c : Char} (h : c.isWhitespace = true) :
    c = ' ' ∨ c = '\t' ∨ c = '\r' ∨ c = '\n' := by
  simp only [Char.isWhitespace, Bool.or_eq_true, decide_eq_true_eq] at h
  tauto

theorem digit_not_ws {c : Char} (h : c.isDigit = true) : c.isWhitespace = false := by
  cases hw : c.isWhitespace with
  | false => rfl
  | true =>
    rcases whitespace_cases hw with rfl | rfl | rfl | rfl <;> exact absurd h (by decide)

theorem digit_ne {c d : Char} (h : c.isDigit = true) (hd : d.isDigit = false) : c ≠ d := by
  intro rfl1
  rw [rfl1, hd] at h
  exact Bool.false_ne_true h

theorem jsSplit_ne_nil (sep : Char) (l : Str) : jsSplit sep l ≠ [] := by
  induction l with
  | nil => simp [jsSplit]
  | cons c rest ih =>
    simp only [jsSplit]
    cases hs : jsSplit sep rest with
    | nil => simp
    | cons s ss =>
      by_cases hc : c = sep <;> simp [hc]

theorem jsSplit_no_sep (sep : Char) (l : Str) (h : sep ∉ l) : jsSplit sep l = [l] := by
  induction l with
  | nil => rfl
  | cons c rest ih =>
    have hc : c ≠ sep := fun hh => h (hh ▸ List.mem_cons_self c rest)
    have hr : sep ∉ rest := fun hh => h (List.mem_cons_of_mem c hh)
    simp only [jsSplit, ih hr]
    simp [fun hh : c = sep => hc hh]

theorem jsSplit_append_sep (sep : Char) (a b : Str) (h : sep ∉ a) :
    jsSplit sep (a ++ sep :: b) = a :: jsSplit sep b := by
  induction a with
  | nil =>
    simp only [List.nil_append, jsSplit]
    cases hs : jsSplit sep b with
    | nil => exact absurd hs (jsSplit_ne_nil sep b)
    | cons s ss => simp
  | cons c a ih =>
    have hc : c ≠ sep := fun hh => h (hh ▸ List.mem_cons_self c a)
    have ha : sep ∉ a := fun hh => h (List.mem_cons_of_mem c hh)
    simp only [List.cons_append, jsSplit, List.append_eq]
    rw [ih ha]
    simp [fun hh : c = sep => hc hh]

theorem jsSplit_mem_no_sep (sep : Char) (l : Str) :
    ∀ s ∈ jsSplit sep l, sep ∉ s := by
  induction l with
  | nil =>
    intro s hs
    simp [jsSplit] at hs
    simp [hs]
  | cons c rest ih =>
    intro s hs
    simp only [jsSplit] at hs
    cases hr : jsSplit sep rest with
    | nil => exact absurd hr (jsSplit_ne_nil sep rest)
    | cons s0 ss =>
      rw [hr] at hs
      by_cases hc : c = sep
      · simp only [hc, if_pos rfl] at hs
        rcases List.mem_cons.mp hs with rfl | hmem
        · simp
        · exact ih s (hr ▸ hmem)
      · simp only [if_neg hc] at hs
        rcases List.mem_cons.mp hs with rfl | hmem
        · intro hmem2
          rcases List.mem_cons.mp hmem2 with rfl | hmem3
          · exact hc rfl
          · exact ih s0 (hr ▸ List.mem_cons_self s0 ss) hmem3
        · exact ih s (hr ▸ List.mem_cons_of_mem s0 hmem)

theorem dropWhile_eq_self_of_false {p : Char → Bool} {l : Str}
    (h : ∀ c ∈ l, p c = false) : l.dropWhile p = l := by
  cases l with
  | nil => rfl
  | cons c rest => simp [List.dropWhile, h c (List.mem_cons_self c rest)]

theorem takeWhile_eq_self_of_true {p : Char → Bool} {l : Str}
    (h : ∀ c ∈ l, p c = true) : l.takeWhile p = l := by
  induction l with
  | nil => rfl
  | cons c rest ih =>
    simp [List.takeWhile, h c (List.mem_cons_self c rest),
      ih (fun d hd => h d (List.mem_cons_of_mem c hd))]

theorem takeWhile_append_of_true {p : Char → Bool} {a : Str} (b : Str)
    (h : ∀ c ∈ a, p c = true) : (a ++ b).takeWhile p = a ++ b.takeWhile p := by
  induction a with
  | nil => rfl
  | cons c a ih =>
    simp [List.takeWhile, h c (List.mem_cons_self c a),
      ih (fun d hd => h d (List.mem_cons_of_mem c hd))]

theorem dropWhile_append_of_true {p : Char → Bool} {a : Str} (b : Str)
    (h : ∀ c ∈ a, p c = true) : (a ++ b).dropWhile p = b.dropWhile p := by
  induction a with
  | nil => rfl
  | cons c a ih =>
    simp [List.dropWhile, h c (List.mem_cons_self c a),
      ih (fun d hd => h d (List.mem_cons_of_mem c hd))]

theorem jsTrim_eq_self {l : Str} (h : ∀ c ∈ l, c.isWhitespace = false) :
    jsTrim l = l := by
  unfold jsTrim
  rw [dropWhile_eq_self_of_false h,
    dropWhile_eq_self_of_false (fun c hc => h c (List.mem_reverse.mp hc)),
    List.reverse_reverse]

theorem normalizeDashes_eq_self {l : Str} (h : ∀ c ∈ l, c ≠ enDash) :
    normalizeDashes l = l := by
  induction l with
  | nil => rfl
  | cons c rest ih =>
    simp only [normalizeDashes, List.map_cons]
    rw [if_neg (h c (List.mem_cons_self c rest))]
    have := ih (fun d hd => h d (List.mem_cons_of_mem c hd))
    simp only [normalizeDashes] at this
    rw [this]

theorem normalizeDashes_append (a b : Str) :
    normalizeDashes (a ++ b) = normalizeDashes a ++ normalizeDashes b :=
  List.map_append _ a b

theorem normalizeDashes_no_semi {l : Str} (h : ';' ∉ l) :
    ';' ∉ normalizeDashes l := by
  intro hmem
  rcases List.mem_map.mp hmem with ⟨c, hc, hcs⟩
  by_cases he : c = enDash
  · rw [if_pos he] at hcs
    exact absurd hcs (by decide)
  · rw [if_neg he] at hcs
    exact h (hcs ▸ hc)

theorem parseIntJS_digits {s : Str} (h1 : s ≠ [])
    (h2 : ∀ c ∈ s, c.isDigit = true) : parseIntJS s = some ((digitsVal s : Int)) := by
  cases s with
  | nil => exact absurd rfl h1
  | cons c rest =>
    have hdw : (c :: rest).dropWhile Char.isWhitespace = c :: rest :=
      dropWhile_eq_self_of_false (fun d hd => digit_not_ws (h2 d hd))
    have hcd : c.isDigit = true := h2 c (List.mem_cons_self c rest)
    have hneg : c ≠ '-' := digit_ne hcd (by decide)
    have hpos : c ≠ '+' := digit_ne hcd (by decide)
    have hld : leadDigits (c :: rest) = c :: rest := takeWhile_eq_self_of_true h2
    simp only [parseIntJS, hdw, if_neg hneg, if_neg hpos, hld]
    simp

theorem parseIntJS_nonneg_of_no_dash {s : Str} (h : '-' ∉ s) :
    ∀ n : Int, parseIntJS s = some n → 0 ≤ n := by
  intro n hn
  unfold parseIntJS at hn
  split at hn
  · exact absurd hn (by simp)
  · rename_i c rest hd
    have hsub : List.Sublist (s.dropWhile Char.isWhitespace) s := List.dropWhile_sublist _
    have hcs : c ∈ s := hsub.subset (hd ▸ List.mem_cons_self c rest)
    have hc : c ≠ '-' := fun hh => h (hh ▸ hcs)
    rw [if_neg hc] at hn
    by_cases hp : c = '+'
    · rw [if_pos hp] at hn
      by_cases hl : leadDigits rest = []
      · rw [if_pos hl] at hn; exact absurd hn (by simp)
      · rw [if_neg hl] at hn
        cases hn
        exact Int.ofNat_nonneg _
    · rw [if_neg hp] at hn
      by_cases hl : leadDigits (c :: rest) = []
      · rw [if_pos hl] at hn; exact absurd hn (by simp)
      · rw [if_neg hl] at hn
        cases hn
        exact Int.ofNat_nonneg _

theorem digitChar_isDigit {m : Nat} (h : m < 10) :
    (Char.ofNat (48 + m)).isDigit = true := by
  interval_cases m <;> decide

theorem natToCharsAux_digits : ∀ fuel n, ∀ c ∈ natToCharsAux fuel n, c.isDigit = true := by
  intro fuel
  induction fuel with
  | zero => intro n c hc; exact absurd hc (by simp [natToCharsAux])
  | succ fuel ih =>
    intro n c hc
    simp only [natToCharsAux] at hc
    by_cases hn : n < 10
    · rw [if_pos hn] at hc
      rcases List.mem_singleton.mp hc with rfl
      exact digitChar_isDigit hn
    · rw [if_neg hn] at hc
      rcases List.mem_append.mp hc with hmem | hmem
      · exact ih _ c hmem
      · rcases List.mem_singleton.mp hmem with rfl
        exact digitChar_isDigit (Nat.mod_lt n (by omega))

theorem natToChars_digits (n : Nat) : ∀ c ∈ natToChars n, c.isDigit = true :=
  natToCharsAux_digits (n + 1) n

theorem natToChars_ne_nil (n : Nat) : natToChars n ≠ [] := by
  unfold natToChars natToCharsAux
  by_cases hn : n < 10 <;> simp [hn]

theorem intToChars_nonneg {i : Int} (h : 0 ≤ i) :
    intToChars i = natToChars i.toNat := by
  unfold intToChars
  rw [if_neg (by omega)]

theorem pushRangeAux_eq (mk : Int → Link) :
    ∀ fuel (i : Int), pushRangeAux mk fuel i
      = (List.range fuel).map (fun k : Nat => mk (i + (k : Int))) := by
  intro fuel
  induction fuel with
  | zero => intro i; rfl
  | succ fuel ih =>
    intro i
    rw [List.range_succ_eq_map]
    simp only [pushRangeAux, ih (i + 1), List.map_cons, List.map_map, Nat.cast_zero,
      Int.add_zero]
    refine congrArg (List.cons (mk i)) ?_
    refine List.map_congr_left (fun k _ => ?_)
    simp only [Function.comp_apply, Nat.succ_eq_add_one]
    refine congrArg mk ?_
    push_cast
    ring

theorem contains_iff {l : Str} {c : Char} : l.contains c = true ↔ c ∈ l := by
  induction l with
  | nil => simp [List.contains]
  | cons d rest ih =>
    simp only [List.contains] at ih ⊢
    rw [List.elem_cons]
    by_cases hd : c = d
    · simp [hd]
    · have hbe : (c == d) = false := by simp [hd]
      simp [hbe, ih, hd]

theorem digits_not_mem {s : Str} (h : ∀ c ∈ s, c.isDigit = true) {d : Char}
    (hd : d.isDigit = false) : d ∉ s := by
  intro hmem
  rw [h d hmem] at hd
  exact Bool.noConfusion hd

/-! Lemmas about segment expansion. -/

theorem segmentLinks_range (src rel ten sa sb : Str)
    (ha1 : sa ≠ []) (ha2 : ∀ c ∈ sa, c.isDigit = true)
    (hb1 : sb ≠ []) (hb2 : ∀ c ∈ sb, c.isDigit = true) :
    segmentLinks src rel ten (sa ++ '-' :: sb)
      = (List.range (digitsVal sb + 1 - digitsVal sa)).map
          (fun k : Nat => mkLink src (natToChars (digitsVal sa + k)) rel ten) := by
  have hws : ∀ c ∈ sa ++ '-' :: sb, c.isWhitespace = false := by
    intro c hc
    rcases List.mem_append.mp hc with hc | hc
    · exact digit_not_ws (ha2 c hc)
    · rcases List.mem_cons.mp hc with rfl | hc
      · decide
      · exact digit_not_ws (hb2 c hc)
  have htr : jsTrim (sa ++ '-' :: sb) = sa ++ '-' :: sb := jsTrim_eq_self hws
  have hne : sa ++ '-' :: sb ≠ [] := by simp
  have hda : '-' ∉ sa := digits_not_mem ha2 (by decide)
  have hdb : '-' ∉ sb := digits_not_mem hb2 (by decide)
  have hcont : (sa ++ '-' :: sb).contains '-' = true :=
    contains_iff.mpr (List.mem_append.mpr (Or.inr (List.mem_cons_self _ _)))
  have hsplit : jsSplit '-' (sa ++ '-' :: sb) = sa :: jsSplit '-' sb :=
    jsSplit_append_sep '-' sa sb hda
  have hsb : jsSplit '-' sb = [sb] := jsSplit_no_sep '-' sb hdb
  have htra : jsTrim sa = sa := jsTrim_eq_self (fun c hc => digit_not_ws (ha2 c hc))
  have htrb : jsTrim sb = sb := jsTrim_eq_self (fun c hc => digit_not_ws (hb2 c hc))
  have hpa : parseIntJS sa = some ((digitsVal sa : Int)) := parseIntJS_digits ha1 ha2
  have hpb : parseIntJS sb = some ((digitsVal sb : Int)) := parseIntJS_digits hb1 hb2
  simp only [segmentLinks, htr, if_neg hne, hcont, if_pos, hsplit, hsb, htra, htrb,
    hpa, hpb]
  unfold pushRange
  rw [pushRangeAux_eq]
  have htn : (((digitsVal sb : Int)) + 1 - ((digitsVal sa : Int))).toNat
      = digitsVal sb + 1 - digitsVal sa := by omega
  rw [htn]
  refine List.map_congr_left (fun k _ => ?_)
  have hnn : (0 : Int) ≤ (digitsVal sa : Int) + (k : Int) := by positivity
  rw [intToChars_nonneg hnn]
  refine congrArg (fun t => mkLink src t rel ten) (congrArg natToChars (by omega))

theorem digits_not_enDash {s : Str} (h : ∀ c ∈ s, c.isDigit = true) :
    ∀ c ∈ s, c ≠ enDash := fun c hc => digit_ne (h c hc) (by decide)

theorem rowLinks_single (src cat act desc rel ten rv s : Str) (hne : s ≠ [])
    (hsemi : ';' ∉ s) (hnorm : normalizeDashes s = s) :
    rowLinks ⟨src, cat, act, desc, s, rel, ten, rv⟩ = segmentLinks src rel ten s := by
  simp only [rowLinks, if_neg hne, hnorm, jsSplit_no_sep ';' s hsemi, List.map_cons,
    List.map_nil, List.flatten_cons, List.flatten_nil, List.append_nil]

/-- C1 (amended): for a range segment written sa-sb with numeric bounds
a = value(sa) and b = value(sb), the expander emits exactly the targets
a, a+1, ..., b in ascending order when a ≤ b; when a > b it silently emits
zero targets — no error is raised (the code has no error channel at all). -/
theorem range_segment_expansion (src cat act desc rel ten rv sa sb : Str)
    (ha1 : sa ≠ []) (ha2 : ∀ c ∈ sa, c.isDigit = true)
    (hb1 : sb ≠ []) (hb2 : ∀ c ∈ sb, c.isDigit = true) :
    rowLinks ⟨src, cat, act, desc, sa ++ '-' :: sb, rel, ten, rv⟩
      = if digitsVal sa ≤ digitsVal sb then
          (List.range (digitsVal sb + 1 - digitsVal sa)).map
            (fun k : Nat => mkLink src (natToChars (digitsVal sa + k)) rel ten)
        else [] := by
  have hnorm : normalizeDashes (sa ++ '-' :: sb) = sa ++ '-' :: sb := by
    refine normalizeDashes_eq_self ?_
    intro c hc
    rcases List.mem_append.mp hc with hc | hc
    · exact digits_not_enDash ha2 c hc
    · rcases List.mem_cons.mp hc with rfl | hc
      · decide
      · exact digits_not_enDash hb2 c hc
  have hsemi : ';' ∉ sa ++ '-' :: sb := by
    intro hc
    rcases List.mem_append.mp hc with hc | hc
    · exact digits_not_mem ha2 (by decide) hc
    · rcases List.mem_cons.mp hc with heq | hc
      · exact absurd heq (by decide)
      · exact digits_not_mem hb2 (by decide) hc
  rw [rowLinks_single src cat act desc rel ten rv _ (by simp) hsemi hnorm,
    segmentLinks_range src rel ten sa sb ha1 ha2 hb1 hb2]
  by_cases h : digitsVal sa ≤ digitsVal sb
  · rw [if_pos h]
  · rw [if_neg h]
    have hz : digitsVal sb + 1 - digitsVal sa = 0 := by omega
    rw [hz]
    rfl

/-- C1 (witness): instantiating the amended range theorem at the concrete
segment 2-5 and evaluating both sides. -/
theorem range_segment_expansion_witness :
    rowLinks ⟨"9".data, "c".data, "A".data, "d".data, "2".data ++ '-' :: "5".data,
        "rel".data, "ten".data, "rv".data⟩
      = [mkLink "9".data "2".data "rel".data "ten".data,
         mkLink "9".data "3".data "rel".data "ten".data,
         mkLink "9".data "4".data "rel".data "ten".data,
         mkLink "9".data "5".data "rel".data "ten".data] := by
  rw [range_segment_expansion "9".data "c".data "A".data "d".data "rel".data
    "ten".data "rv".data "2".data "5".data (by decide) (by decide) (by decide)
    (by decide)]
  decide

/-- C1 (counterexample): the reversed range 5-3 silently expands to zero
targets; no ReferenceFormatError exists anywhere in the code, contradicting
the claim that reversed bounds raise one rather than emitting nothing. -/
theorem range_reversed_silent :
    rowLinks exRow53 = [] ∧ buildLinks [exRow53] = [] := by
  constructor <;> decide

/-- C5 (counterexample): the claim says a non-numeric segment is dropped
with a recorded warning and emits no target.  In fact the segment abc of
abc;2 is emitted verbatim as a target, and a range with an unparsable bound
is dropped with no warning recorded anywhere (the code keeps no warning
list). -/
theorem bad_segment_not_dropped :
    rowLinks exRowAbc
        = [mkLink "1".data "abc".data "rel".data "ten".data,
           mkLink "1".data "2".data "rel".data "ten".data]
      ∧ rowLinks exRowBadRange = [mkLink "1".data "2".data "rel".data "ten".data] := by
  constructor <;> decide

/-- C5 (amended): a trimmed non-empty segment without a hyphen is emitted
verbatim as a single target (numeric or not); a hyphenated segment either
of whose first two pieces fails to parse is dropped silently (no warning is
recorded — the code has no warning channel); and segments are processed
independently, so one bad segment never affects the links of the remaining
segments of the row. -/
theorem segment_error_handling :
    (∀ src rel ten item, jsTrim item ≠ [] → (jsTrim item).contains '-' = false →
        segmentLinks src rel ten item = [mkLink src (jsTrim item) rel ten])
  ∧ (∀ src rel ten item s0 s1 rest2, (jsTrim item).contains '-' = true →
        jsSplit '-' (jsTrim item) = s0 :: s1 :: rest2 →
        (parseIntJS (jsTrim s0) = none ∨ parseIntJS (jsTrim s1) = none) →
        segmentLinks src rel ten item = [])
  ∧ (∀ src cat act desc rel ten rv s1 s2, ';' ∉ s1 →
        rowLinks ⟨src, cat, act, desc, s1 ++ ';' :: s2, rel, ten, rv⟩
          = segmentLinks src rel ten (normalizeDashes s1)
            ++ rowLinks ⟨src, cat, act, desc, s2, rel, ten, rv⟩) := by
  refine ⟨?_, ?_, ?_⟩
  · intro src rel ten item hne hcont
    simp only [segmentLinks, if_neg hne, hcont]
    simp
  · intro src rel ten item s0 s1 rest2 hcont hsplit hbad
    have hne : jsTrim item ≠ [] := by
      intro hh
      rw [hh] at hcont
      exact absurd hcont (by decide)
    simp only [segmentLinks, if_neg hne, hcont, if_pos, hsplit]
    rcases hbad with hbad | hbad
    · rw [hbad]
    · rw [hbad]
      cases parseIntJS (jsTrim s0) <;> rfl
  · intro src cat act desc rel ten rv s1 s2 hsemi
    have hsemi2 : ';' ∉ normalizeDashes s1 := normalizeDashes_no_semi hsemi
    simp only [rowLinks, if_neg (show s1 ++ ';' :: s2 ≠ [] by simp)]
    rw [show normalizeDashes (s1 ++ ';' :: s2)
        = normalizeDashes s1 ++ ';' :: normalizeDashes s2 by
      rw [normalizeDashes_append]
      simp only [normalizeDashes, List.map_cons]
      rw [if_neg (show ¬ (';' = enDash) by decide)]]
    rw [jsSplit_append_sep ';' (normalizeDashes s1) (normalizeDashes s2) hsemi2]
    simp only [List.map_cons, List.flatten_cons]
    by_cases hs2 : s2 = []
    · subst hs2
      simp [normalizeDashes, jsSplit, segmentLinks, jsTrim]
    · rw [if_neg hs2]

/-- C5 (witness): instantiating all three parts of the amended theorem at
concrete inputs and evaluating. -/
theorem segment_error_handling_witness :
    segmentLinks "1".data "r".data "t".data "abc".data
        = [mkLink "1".data "abc".data "r".data "t".data]
      ∧ segmentLinks "1".data "r".data "t".data "1-x".data = []
      ∧ rowLinks ⟨"1".data, "c".data, "A".data, "d".data, "abc".data ++ ';' :: "2".data,
            "r".data, "t".data, "rv".data⟩
          = segmentLinks "1".data "r".data "t".data (normalizeDashes "abc".data)
            ++ rowLinks ⟨"1".data, "c".data, "A".data, "d".data, "2".data,
                "r".data, "t".data, "rv".data⟩ :=
  ⟨segment_error_handling.1 "1".data "r".data "t".data "abc".data (by decide) (by decide),
   segment_error_handling.2.1 "1".data "r".data "t".data "1-x".data "1".data "x".data []
     (by decide) (by decide) (Or.inr (by decide)),
   segment_error_handling.2.2 "1".data "c".data "A".data "d".data "r".data "t".data
     "rv".data "abc".data "2".data (by decide)⟩

/-- C8 (counterexample): a range written with an en dash or a hyphen
expands to the targets 1, 2, 3, but the em dash is not a range separator:
the em-dash segment is emitted verbatim as a single target, contradicting
the claim that all three dash variants are normalized. -/
theorem em_dash_not_separator :
    rowLinks exRowEnDash
        = [mkLink "9".data "1".data "rel".data "ten".data,
           mkLink "9".data "2".data "rel".data "ten".data,
           mkLink "9".data "3".data "rel".data "ten".data]
      ∧ rowLinks exRowHyphen = rowLinks exRowEnDash
      ∧ rowLinks exRowEmDash
          = [mkLink "9".data ('1' :: emDash :: ['3']) "rel".data "ten".data]
      ∧ rowLinks exRowEmDash ≠ rowLinks exRowHyphen := by
  refine ⟨by decide, by decide, by decide, by decide⟩

/-- C8 (amended): only the en dash is normalized to a hyphen, so an
interaction string written with en dashes produces exactly the links of the
same string written with hyphens; the em dash is not treated as a range
separator, and a digits-em-dash-digits segment is emitted verbatim as one
target. -/
theorem dash_normalization :
    (∀ src cat act desc rel ten rv s,
        rowLinks ⟨src, cat, act, desc, normalizeDashes s, rel, ten, rv⟩
          = rowLinks ⟨src, cat, act, desc, s, rel, ten, rv⟩)
  ∧ (∀ src rel ten sa sb, sa ≠ [] → (∀ c ∈ sa, c.isDigit = true) →
        sb ≠ [] → (∀ c ∈ sb, c.isDigit = true) →
        segmentLinks src rel ten (sa ++ emDash :: sb)
          = [mkLink src (sa ++ emDash :: sb) rel ten]) := by
  constructor
  · intro src cat act desc rel ten rv s
    have hidem : normalizeDashes (normalizeDashes s) = normalizeDashes s := by
      simp only [normalizeDashes, List.map_map]
      refine List.map_congr_left (fun c _ => ?_)
      by_cases hc : c = enDash <;> simp [hc]
    have hnil : normalizeDashes s = [] ↔ s = [] := by
      simp [normalizeDashes]
    simp only [rowLinks, hidem, hnil]
  · intro src rel ten sa sb ha1 ha2 hb1 hb2
    have hws : ∀ c ∈ sa ++ emDash :: sb, c.isWhitespace = false := by
      intro c hc
      rcases List.mem_append.mp hc with hc | hc
      · exact digit_not_ws (ha2 c hc)
      · rcases List.mem_cons.mp hc with rfl | hc
        · decide
        · exact digit_not_ws (hb2 c hc)
    have htr : jsTrim (sa ++ emDash :: sb) = sa ++ emDash :: sb := jsTrim_eq_self hws
    have hcont : (sa ++ emDash :: sb).contains '-' = false := by
      cases hc : (sa ++ emDash :: sb).contains '-' with
      | false => rfl
      | true =>
        rcases List.mem_append.mp (contains_iff.mp hc) with hm | hm
        · exact absurd hm (digits_not_mem ha2 (by decide))
        · rcases List.mem_cons.mp hm with heq | hm
          · exact absurd heq (by decide)
          · exact absurd hm (digits_not_mem hb2 (by decide))
    simp only [segmentLinks, htr, if_neg (show sa ++ emDash :: sb ≠ [] by simp), hcont]
    simp

/-- C8 (witness): instantiating both parts of the amended theorem at
concrete inputs and evaluating. -/
theorem dash_normalization_witness :
    rowLinks ⟨"9".data, "c".data, "A".data, "d".data,
          normalizeDashes ('1' :: enDash :: ['3']), "rel".data, "ten".data, "rv".data⟩
        = rowLinks ⟨"9".data, "c".data, "A".data, "d".data, '1' :: enDash :: ['3'],
            "rel".data, "ten".data, "rv".data⟩
      ∧ segmentLinks "9".data "rel".data "ten".data ("1".data ++ emDash :: "3".data)
          = [mkLink "9".data ("1".data ++ emDash :: "3".data) "rel".data "ten".data] :=
  ⟨dash_normalization.1 "9".data "c".data "A".data "d".data "rel".data "ten".data
     "rv".data ('1' :: enDash :: ['3']),
   dash_normalization.2 "9".data "rel".data "ten".data "1".data "3".data (by decide)
     (by decide) (by decide) (by decide)⟩

/-! Lemmas about faction classification and node color. -/

theorem getNodeType_friendly_iff (id : Str) :
    getNodeType id = .friendly
      ↔ ∃ n : Int, parseIntJS id = some n ∧ ((1 ≤ n ∧ n ≤ 17) ∨ n = 33) := by
  unfold getNodeType
  cases hp : parseIntJS id with
  | none => simp
  | some n =>
    by_cases h1 : (1 ≤ n ∧ n ≤ 17) ∨ n = 33
    · simp [h1]
    · by_cases h2 : 18 ≤ n ∧ n ≤ 32 <;> simp [h1, h2]

theorem getNodeType_adversary_iff (id : Str) :
    getNodeType id = .adversary
      ↔ ∃ n : Int, parseIntJS id = some n ∧ (18 ≤ n ∧ n ≤ 32)
          ∧ ¬((1 ≤ n ∧ n ≤ 17) ∨ n = 33) := by
  unfold getNodeType
  cases hp : parseIntJS id with
  | none => simp
  | some n =>
    by_cases h1 : (1 ≤ n ∧ n ≤ 17) ∨ n = 33
    · simp only [h1, if_pos]
      simp
      omega
    · by_cases h2 : 18 ≤ n ∧ n ≤ 32
      · simp [h1, h2]
        omega
      · simp [h1, h2]

theorem getNodeType_neutral_of_none {id : Str} (hp : parseIntJS id = none) :
    getNodeType id = .neutral := by
  unfold getNodeType
  rw [hp]

theorem friendlyIds_eq :
    friendlyIds
      = [1, 2, 3, 4, 5, 6, 7, 8, 9, 10, 11, 12, 13, 14, 15, 16, 17, 33] := by decide

/-- C4: faction classification is a total function of the id: an id is
Friendly exactly when parseInt yields a value in [1, 17] or 33, Adversary
exactly when it yields a value in [18, 32], and Neutral in every other
case, including the non-numeric ids on which parseInt yields NaN.  (For an
id such as 17abc, parseInt reads the longest digit prefix; the id's integer
value is what parseInt produces.) -/
theorem faction_partition (id : Str) :
    (getNodeType id = .friendly
      ↔ ∃ n : Int, parseIntJS id = some n ∧ ((1 ≤ n ∧ n ≤ 17) ∨ n = 33))
  ∧ (getNodeType id = .adversary
      ↔ ∃ n : Int, parseIntJS id = some n ∧ (18 ≤ n ∧ n ≤ 32))
  ∧ (parseIntJS id = none → getNodeType id = .neutral)
  ∧ (∀ n : Int, parseIntJS id = some n → ¬((1 ≤ n ∧ n ≤ 17) ∨ n = 33) →
      ¬(18 ≤ n ∧ n ≤ 32) → getNodeType id = .neutral) := by
  refine ⟨getNodeType_friendly_iff id, ?_, getNodeType_neutral_of_none, ?_⟩
  · rw [getNodeType_adversary_iff id]
    constructor
    · rintro ⟨n, hp, hn, _⟩
      exact ⟨n, hp, hn⟩
    · rintro ⟨n, hp, hn⟩
      exact ⟨n, hp, hn, by omega⟩
  · intro n hp h1 h2
    simp [getNodeType, hp, h1, h2]

/-- C4 (witness): instantiating the partition theorem at the ids 33, 20 and
a non-numeric id. -/
theorem faction_partition_witness :
    getNodeType "33".data = .friendly
      ∧ getNodeType "20".data = .adversary
      ∧ getNodeType "xyz".data = .neutral :=
  ⟨(faction_partition "33".data).1.mpr ⟨33, by decide, by decide⟩,
   (faction_partition "20".data).2.1.mpr ⟨20, by decide, by decide⟩,
   (faction_partition "xyz".data).2.2.1 (by decide)⟩

theorem getNodeColor_friendly {id : Str} {n : Int} (hp : parseIntJS id = some n)
    (ht : getNodeType id = .friendly) :
    getNodeColor id = hsl 210 (30 + jsIndexOf n friendlyIds * 3) := by
  unfold getNodeColor
  rw [ht, hp]

theorem getNodeColor_adversary {id : Str} {n : Int} (hp : parseIntJS id = some n)
    (ht : getNodeType id = .adversary) :
    getNodeColor id = hsl 0 (30 + (n - 18) * 3) := by
  unfold getNodeColor
  rw [ht, hp]

theorem getNodeColor_neutral {id : Str} (ht : getNodeType id = .neutral) :
    getNodeColor id = "#888888".data := by
  unfold getNodeColor
  rw [ht]

theorem friendly_parse_some {id : Str} (ht : getNodeType id = .friendly) :
    ∃ n : Int, parseIntJS id = some n ∧ n ∈ friendlyIds := by
  rcases (getNodeType_friendly_iff id).mp ht with ⟨n, hp, hn⟩
  refine ⟨n, hp, ?_⟩
  rw [friendlyIds_eq]
  simp only [List.mem_cons, List.mem_singleton]
  omega

theorem adversary_parse_some {id : Str} (ht : getNodeType id = .adversary) :
    ∃ n : Int, parseIntJS id = some n
      ∧ n ∈ ([18, 19, 20, 21, 22, 23, 24, 25, 26, 27, 28, 29, 30, 31, 32] : List Int) := by
  rcases (getNodeType_adversary_iff id).mp ht with ⟨n, hp, hn, _⟩
  refine ⟨n, hp, ?_⟩
  simp only [List.mem_cons, List.mem_singleton]
  omega

theorem friendly_color_inj :
    ∀ n ∈ friendlyIds, ∀ m ∈ friendlyIds, n ≠ m →
      hsl 210 (30 + jsIndexOf n friendlyIds * 3)
        ≠ hsl 210 (30 + jsIndexOf m friendlyIds * 3) := by decide

theorem adversary_color_inj :
    ∀ n ∈ ([18, 19, 20, 21, 22, 23, 24, 25, 26, 27, 28, 29, 30, 31, 32] : List Int),
      ∀ m ∈ ([18, 19, 20, 21, 22, 23, 24, 25, 26, 27, 28, 29, 30, 31, 32] : List Int),
        n ≠ m → hsl 0 (30 + (n - 18) * 3) ≠ hsl 0 (30 + (m - 18) * 3) := by decide

/-- C10 (amended): node color is a function of the id's parsed integer
value alone; every Neutral id maps to the gray #888888; and within the
Friendly faction and within the Adversary faction, ids with distinct
parsed values map to distinct colors, with lightness 30 plus 3 times the
id's rank inside its faction.  (Distinct id strings with the same parsed
value, such as 01 and 1, share a color — see the counterexample.) -/
theorem color_function (s t : Str) :
    (parseIntJS s = parseIntJS t → getNodeColor s = getNodeColor t)
  ∧ (getNodeType s = .neutral → getNodeColor s = "#888888".data)
  ∧ (getNodeType s = .friendly → getNodeType t = .friendly →
      parseIntJS s ≠ parseIntJS t → getNodeColor s ≠ getNodeColor t)
  ∧ (getNodeType s = .adversary → getNodeType t = .adversary →
      parseIntJS s ≠ parseIntJS t → getNodeColor s ≠ getNodeColor t)
  ∧ (∀ n : Int, parseIntJS s = some n → getNodeType s = .friendly →
      getNodeColor s = hsl 210 (30 + jsIndexOf n friendlyIds * 3))
  ∧ (∀ n : Int, parseIntJS s = some n → getNodeType s = .adversary →
      getNodeColor s = hsl 0 (30 + (n - 18) * 3)) := by
  refine ⟨?_, getNodeColor_neutral, ?_, ?_,
    fun n hp ht => getNodeColor_friendly hp ht,
    fun n hp ht => getNodeColor_adversary hp ht⟩
  · intro h
    have ht : getNodeType s = getNodeType t := by
      unfold getNodeType
      rw [h]
    unfold getNodeColor
    rw [h, ht]
  · intro hs ht hne
    rcases friendly_parse_some hs with ⟨n, hpn, hmn⟩
    rcases friendly_parse_some ht with ⟨m, hpm, hmm⟩
    have hnm : n ≠ m := by
      intro rfl1
      exact hne (by rw [hpn, hpm, rfl1])
    rw [getNodeColor_friendly hpn hs, getNodeColor_friendly hpm ht]
    exact friendly_color_inj n hmn m hmm hnm
  · intro hs ht hne
    rcases adversary_parse_some hs with ⟨n, hpn, hmn⟩
    rcases adversary_parse_some ht with ⟨m, hpm, hmm⟩
    have hnm : n ≠ m := by
      intro rfl1
      exact hne (by rw [hpn, hpm, rfl1])
    rw [getNodeColor_adversary hpn hs, getNodeColor_adversary hpm ht]
    exact adversary_color_inj n hmn m hmm hnm

/-- C10 (witness): instantiating the amended color theorem at concrete
friendly, adversary and neutral ids. -/
theorem color_function_witness :
    getNodeColor "1".data ≠ getNodeColor "2".data
      ∧ getNodeColor "18".data ≠ getNodeColor "19".data
      ∧ getNodeColor "xyz".data = "#888888".data :=
  ⟨(color_function "1".data "2".data).2.2.1 (by decide) (by decide) (by decide),
   (color_function "18".data "19".data).2.2.2.1 (by decide) (by decide) (by decide),
   (color_function "xyz".data "xyz".data).2.1 (by decide)⟩

/-- C10 (counterexample): the distinct id strings 01 and 1 are both
Friendly yet receive the same color, contradicting the claim that within a
non-neutral faction any two distinct ids map to distinct colors. -/
theorem distinct_ids_same_color :
    getNodeType "01".data = .friendly
      ∧ ("01".data : Str) ≠ "1".data
      ∧ getNodeColor "01".data = getNodeColor "1".data := by
  refine ⟨by decide, by decide, by decide⟩

/-! Lemmas about edge deduplication. -/

theorem jsTrim_subset {l : Str} {c : Char} (h : c ∈ jsTrim l) : c ∈ l := by
  unfold jsTrim at h
  rw [List.mem_reverse] at h
  have h2 := (List.dropWhile_sublist Char.isWhitespace).subset h
  rw [List.mem_reverse] at h2
  exact (List.dropWhile_sublist Char.isWhitespace).subset h2

theorem segmentLinks_target_no_dash (src rel ten item : Str) :
    ∀ l ∈ segmentLinks src rel ten item, '-' ∉ l.target := by
  intro l hl
  simp only [segmentLinks] at hl
  by_cases h1 : jsTrim item = []
  · rw [if_pos h1] at hl
    exact absurd hl (List.not_mem_nil l)
  · rw [if_neg h1] at hl
    by_cases h2 : (jsTrim item).contains '-' = true
    · rw [if_pos h2] at hl
      split at hl
      · split at hl
        · rename_i x0 s0 s1 tail heq x2 x3 a b hpa hpb
          unfold pushRange at hl
          rw [pushRangeAux_eq] at hl
          rcases List.mem_map.mp hl with ⟨k, _, hlk⟩
          have hs0 : '-' ∉ s0 :=
            jsSplit_mem_no_sep '-' (jsTrim item) s0 (heq ▸ List.mem_cons_self _ _)
          have hs0t : '-' ∉ jsTrim s0 := fun hm => hs0 (jsTrim_subset hm)
          have ha : (0 : Int) ≤ a := parseIntJS_nonneg_of_no_dash hs0t a hpa
          have hnn : (0 : Int) ≤ a + (k : Int) := by omega
          rw [← hlk]
          simp only [mkLink]
          rw [intToChars_nonneg hnn]
          exact digits_not_mem (natToChars_digits _) (by decide)
        · exact absurd hl (List.not_mem_nil l)
      · exact absurd hl (List.not_mem_nil l)
    · rw [if_neg h2] at hl
      rcases List.mem_singleton.mp hl with rfl
      simp only [mkLink]
      intro hm
      exact h2 (contains_iff.mpr hm)

theorem rowLinks_target_no_dash (row : Row) :
    ∀ l ∈ rowLinks row, '-' ∉ l.target := by
  intro l hl
  unfold rowLinks at hl
  by_cases h : row.interactsWith = []
  · rw [if_pos h] at hl
    exact absurd hl (List.not_mem_nil l)
  · rw [if_neg h] at hl
    rcases List.mem_flatten.mp hl with ⟨ls, hls, hlm⟩
    rcases List.mem_map.mp hls with ⟨seg, _, hseg⟩
    exact segmentLinks_target_no_dash _ _ _ seg l (hseg ▸ hlm)

theorem raw_links_target_no_dash (rows : List Row) :
    ∀ l ∈ (rows.map rowLinks).flatten, '-' ∉ l.target := by
  intro l hl
  rcases List.mem_flatten.mp hl with ⟨ls, hls, hlm⟩
  rcases List.mem_map.mp hls with ⟨row, _, hrow⟩
  exact rowLinks_target_no_dash row l (hrow ▸ hlm)

theorem linkKey_inj {l1 l2 : Link} (h1 : '-' ∉ l1.target) (h2 : '-' ∉ l2.target)
    (hk : linkKey l1 = linkKey l2) : l1.source = l2.source ∧ l1.target = l2.target := by
  unfold linkKey at hk
  have hrev := congrArg List.reverse hk
  have hshape : ∀ t s : Str, (s ++ '-' :: '>' :: t).reverse
      = t.reverse ++ '>' :: '-' :: s.reverse := by
    intro t s
    simp
  rw [hshape, hshape] at hrev
  have hmemp : ∀ t : Str, '-' ∉ t →
      ∀ c ∈ t.reverse, (!(c == '-')) = true := by
    intro t ht c hc
    have : c ≠ '-' := fun hh => ht (hh ▸ List.mem_reverse.mp hc)
    simp [this]
  have htake : ∀ t s : Str, '-' ∉ t →
      (t.reverse ++ '>' :: '-' :: s.reverse).takeWhile (fun c => !(c == '-'))
        = t.reverse ++ ['>'] := by
    intro t s ht
    rw [takeWhile_append_of_true _ (hmemp t ht)]
    rfl
  have hdrop : ∀ t s : Str, '-' ∉ t →
      (t.reverse ++ '>' :: '-' :: s.reverse).dropWhile (fun c => !(c == '-'))
        = '-' :: s.reverse := by
    intro t s ht
    rw [dropWhile_append_of_true _ (hmemp t ht)]
    rfl
  have htk := congrArg (List.takeWhile (fun c => !(c == '-'))) hrev
  rw [htake _ _ h1, htake _ _ h2] at htk
  have hdr := congrArg (List.dropWhile (fun c => !(c == '-'))) hrev
  rw [hdrop _ _ h1, hdrop _ _ h2] at hdr
  have ht : l1.target = l2.target := by
    have := List.append_cancel_right htk
    exact List.reverse_injective this
  have hs : l1.source = l2.source := by
    have := List.cons_injective hdr
    exact List.reverse_injective this
  exact ⟨hs, ht⟩

theorem dedupAux_sublist : ∀ (ls : List Link) (seen : List Str),
    List.Sublist (dedupAux seen ls) ls := by
  intro ls
  induction ls with
  | nil => intro seen; simp [dedupAux]
  | cons l rest ih =>
    intro seen
    simp only [dedupAux]
    by_cases h : linkKey l ∈ seen
    · rw [if_pos h]
      exact (ih seen).cons l
    · rw [if_neg h]
      exact (ih _).cons₂ l

theorem dedupAux_keys : ∀ (ls : List Link) (seen : List Str),
    List.Pairwise (fun a b => linkKey a ≠ linkKey b) (dedupAux seen ls)
      ∧ ∀ l ∈ dedupAux seen ls, linkKey l ∉ seen := by
  intro ls
  induction ls with
  | nil => intro seen; exact ⟨List.Pairwise.nil, by simp [dedupAux]⟩
  | cons l rest ih =>
    intro seen
    simp only [dedupAux]
    by_cases h : linkKey l ∈ seen
    · rw [if_pos h]
      exact ih seen
    · rw [if_neg h]
      rcases ih (linkKey l :: seen) with ⟨hpw, hns⟩
      refine ⟨List.Pairwise.cons ?_ hpw, ?_⟩
      · intro b hb heq
        exact hns b hb (heq ▸ List.mem_cons_self _ _)
      · intro x hx
        rcases List.mem_cons.mp hx with rfl | hx
        · exact h
        · exact fun hs => hns x hx (List.mem_cons_of_mem _ hs)

theorem dedupAux_first : ∀ (pre : List Link) (seen : List Str) (l : Link)
    (post : List Link), linkKey l ∉ seen → (∀ p ∈ pre, linkKey p ≠ linkKey l) →
    l ∈ dedupAux seen (pre ++ l :: post) := by
  intro pre
  induction pre with
  | nil =>
    intro seen l post hs _
    simp only [List.nil_append, dedupAux, if_neg hs]
    exact List.mem_cons_self l _
  | cons p pre ih =>
    intro seen l post hs hpre
    simp only [List.cons_append, dedupAux]
    by_cases h : linkKey p ∈ seen
    · rw [if_pos h]
      exact ih seen l post hs (fun q hq => hpre q (List.mem_cons_of_mem p hq))
    · rw [if_neg h]
      refine List.mem_cons_of_mem p
        (ih _ l post ?_ (fun q hq => hpre q (List.mem_cons_of_mem p hq)))
      intro hmem
      rcases List.mem_cons.mp hmem with heq | hmem2
      · exact hpre p (List.mem_cons_self p pre) heq.symm
      · exact hs hmem2

/-- C2: the built edge list contains at most one edge per ordered
(source, target) pair; it is an order-preserving sublist of the raw
expanded link sequence, each pair's first occurrence (with its metadata)
being the one retained; and the row 2;2 yields exactly one edge.
Determinism across rebuilds is immediate because the builder is a pure
function of the rows. -/
theorem edge_dedup_first_wins :
    (∀ rows : List Row,
        List.Pairwise (fun a b => ¬(a.source = b.source ∧ a.target = b.target))
          (buildLinks rows)
      ∧ List.Sublist (buildLinks rows) ((rows.map rowLinks).flatten)
      ∧ ∀ pre l post, (rows.map rowLinks).flatten = pre ++ l :: post →
          (∀ p ∈ pre, ¬(p.source = l.source ∧ p.target = l.target)) →
          l ∈ buildLinks rows)
  ∧ buildLinks [exRow22] = [mkLink "1".data "2".data "rel".data "ten".data] := by
  constructor
  · intro rows
    refine ⟨?_, dedupAux_sublist _ [], ?_⟩
    · refine ((dedupAux_keys ((rows.map rowLinks).flatten) []).1).imp ?_
      intro a b hk hpair
      exact hk (by unfold linkKey; rw [hpair.1, hpair.2])
    · intro pre l post heq hpre
      unfold buildLinks dedupLinks
      rw [heq]
      refine dedupAux_first pre [] l post (List.not_mem_nil _) ?_
      intro p hp hkey
      have hpr : p ∈ (rows.map rowLinks).flatten := by
        rw [heq]
        exact List.mem_append.mpr (Or.inl hp)
      have hlr : l ∈ (rows.map rowLinks).flatten := by
        rw [heq]
        exact List.mem_append.mpr (Or.inr (List.mem_cons_self _ _))
      exact hpre p hp
        (linkKey_inj (raw_links_target_no_dash rows p hpr)
          (raw_links_target_no_dash rows l hlr) hkey)
  · decide

/-- C2 (witness): applying the first-wins part at the concrete raw list of
the row 2;2, whose first occurrence is retained. -/
theorem edge_dedup_first_wins_witness :
    mkLink "1".data "2".data "rel".data "ten".data ∈ buildLinks [exRow22] :=
  (edge_dedup_first_wins.1 [exRow22]).2.2 []
    (mkLink "1".data "2".data "rel".data "ten".data)
    [mkLink "1".data "2".data "rel".data "ten".data]
    (by decide) (fun p hp => absurd hp (List.not_mem_nil p))

/-! Lemmas about the selection resolver. -/

/-- C3: every incident edge contributes exactly one neighborhood entry (the
entry list is the one-to-one image of the incident edges); an entry's
direction is the outgoing marker exactly when the clicked node is the
resolved source, and the incoming marker exactly when the clicked node is
the target and not the source; in particular a self-loop whose two
endpoints both resolve to the clicked node yields its single entry as
Outgoing. -/
theorem selection_direction (nodes : List Node) (links : List Link) (clicked : Node) :
    (handleNodeClick nodes links clicked).length
      = ((links.map (resolveLink nodes)).filter (isIncident clicked.id)).length
  ∧ (∀ rl : RLink, isIncident clicked.id rl = true →
      (((edgeInfoOf clicked.id rl).direction = toDir)
          ↔ rl.source.idOf = some clicked.id)
      ∧ (((edgeInfoOf clicked.id rl).direction = fromDir)
          ↔ (rl.target.idOf = some clicked.id ∧ ¬ rl.source.idOf = some clicked.id)))
  ∧ (∀ rl : RLink, rl.source.idOf = some clicked.id →
      rl.target.idOf = some clicked.id →
      (edgeInfoOf clicked.id rl).direction = toDir) := by
  refine ⟨?_, ?_, ?_⟩
  · unfold handleNodeClick
    rw [List.length_map]
  · intro rl hinc
    by_cases hs : (rl.source.idOf == some clicked.id) = true
    · have hseq : rl.source.idOf = some clicked.id := eq_of_beq hs
      constructor
      · simp only [edgeInfoOf, hs, if_pos]
        exact ⟨fun _ => hseq, fun _ => trivial⟩
      · simp only [edgeInfoOf, hs, if_pos]
        constructor
        · intro hdd
          exact absurd hdd (by decide)
        · rintro ⟨_, hns⟩
          exact absurd hseq hns
    · have hsne : ¬ rl.source.idOf = some clicked.id := fun he => hs (by rw [he]; simp)
      have hbf : (rl.source.idOf == some clicked.id) = false :=
        Bool.not_eq_true _ ▸ eq_false_of_ne_true hs
      have ht : rl.target.idOf = some clicked.id := by
        unfold isIncident at hinc
        rcases Bool.or_eq_true_iff.mp hinc with hcase | hcase
        · exact absurd (eq_of_beq hcase) hsne
        · exact eq_of_beq hcase
      constructor
      · simp only [edgeInfoOf, hbf, Bool.false_eq_true, if_neg, if_false]
        exact ⟨fun hdd => absurd hdd.symm (by decide), fun hss => absurd hss hsne⟩
      · simp only [edgeInfoOf, hbf, Bool.false_eq_true, if_neg, if_false]
        exact ⟨fun _ => ⟨ht, hsne⟩, fun _ => trivial⟩
  · intro rl h1 _
    have hs : (rl.source.idOf == some clicked.id) = true := by rw [h1]; simp
    simp only [edgeInfoOf, hs, if_pos]

/-- C3 (witness): in the two-node graph with the single edge 1 to 2,
clicking node 2 classifies the edge as incoming, and a self-loop on the
clicked node is classified as outgoing. -/
theorem selection_direction_witness :
    (edgeInfoOf exNode2.id (resolveLink [exNode1, exNode2] exLink12)).direction = fromDir
      ∧ (edgeInfoOf exNode2.id (resolveLink [exNode1, exNode2] exLink22)).direction
          = toDir :=
  ⟨(((selection_direction [exNode1, exNode2] [exLink12] exNode2).2.1
      (resolveLink [exNode1, exNode2] exLink12) (by decide)).2).mpr
      ⟨by decide, by decide⟩,
   (selection_direction [exNode1, exNode2] [exLink22] exNode2).2.2
      (resolveLink [exNode1, exNode2] exLink22) (by decide) (by decide)⟩

/-- C6 (amended): resolving a dangling endpoint does not fail and the
dangling edge is retained — it still contributes its neighborhood entry —
but no marked placeholder is substituted: the entry's other-node id, name
and category are all undefined, and in particular the raw id string is not
carried in the entry. -/
theorem dangling_resolution (nodes : List Node) (links : List Link) (clicked : Node)
    (l : Link) (hmem : l ∈ links)
    (hinc : isIncident clicked.id (resolveLink nodes l) = true) :
    edgeInfoOf clicked.id (resolveLink nodes l) ∈ handleNodeClick nodes links clicked
  ∧ (∀ s : Str, (resolveLink nodes l).target = Endpoint.raw s →
      (edgeInfoOf clicked.id (resolveLink nodes l)).direction = toDir
      ∧ (edgeInfoOf clicked.id (resolveLink nodes l)).otherNodeId = none
      ∧ (edgeInfoOf clicked.id (resolveLink nodes l)).otherNodeName = none
      ∧ (edgeInfoOf clicked.id (resolveLink nodes l)).otherNodeCategory = none) := by
  constructor
  · unfold handleNodeClick
    exact List.mem_map.mpr ⟨resolveLink nodes l,
      List.mem_filter.mpr ⟨List.mem_map.mpr ⟨l, hmem, rfl⟩, hinc⟩, rfl⟩
  · intro s hraw
    have hto : (resolveLink nodes l).target.idOf = none := by
      rw [hraw]
      rfl
    have hsrc : ((resolveLink nodes l).source.idOf == some clicked.id) = true := by
      unfold isIncident at hinc
      rcases Bool.or_eq_true_iff.mp hinc with hcase | hcase
      · exact hcase
      · rw [hto] at hcase
        exact absurd (eq_of_beq hcase) (by simp)
    have hseq : (resolveLink nodes l).source.idOf = some clicked.id := eq_of_beq hsrc
    cases hsrc2 : (resolveLink nodes l).source with
    | raw s2 =>
      rw [hsrc2] at hseq
      simp [Endpoint.idOf] at hseq
    | node n =>
      rw [hsrc2] at hseq
      simp only [Endpoint.idOf, Option.some.injEq] at hseq
      refine ⟨?_, ?_, ?_, ?_⟩ <;>
        simp [edgeInfoOf, hsrc2, hraw, Endpoint.idOf, Endpoint.nameOf,
          Endpoint.categoryOf, hseq]

/-- C6 (witness): applying the dangling-resolution theorem to the concrete
graph with one node and the dangling edge 1 to 99. -/
theorem dangling_resolution_witness :
    edgeInfoOf exNode1.id (resolveLink [exNode1] exLink199)
        ∈ handleNodeClick [exNode1] [exLink199] exNode1
      ∧ (edgeInfoOf exNode1.id (resolveLink [exNode1] exLink199)).otherNodeId = none :=
  ⟨(dangling_resolution [exNode1] [exLink199] exNode1 exLink199 (by decide)
      (by decide)).1,
   ((dangling_resolution [exNode1] [exLink199] exNode1 exLink199 (by decide)
      (by decide)).2 "99".data (by decide)).2.1⟩

/-- C6 (counterexample): with nodes consisting only of node 1 and the
dangling edge 1 to 99, the neighborhood entry produced by clicking node 1
carries undefined identity fields — not a placeholder carrying the raw id
99 — contradicting the claim that a marked unknown-node placeholder with
the raw id is substituted. -/
theorem dangling_no_placeholder :
    handleNodeClick [exNode1] [exLink199] exNode1
        = [⟨toDir, none, none, none, "rel".data, "ten".data⟩]
      ∧ ∀ e ∈ handleNodeClick [exNode1] [exLink199] exNode1,
          ¬ e.otherNodeId = some "99".data := by
  exact ⟨by decide, by decide⟩

/-- C7 (amended): the loader never fails and never reports: it is a total
function producing exactly one node per parsed record, with the error
records of the CSV library discarded by the destructuring; no
MalformedInputError exists and no skipped-row count is surfaced. -/
theorem load_never_fails (csv : Str) :
    (loadCSVData csv).nodes.length = (papaParse csv).1.length
  ∧ (loadCSVData csv).nodes = buildNodes ((papaParse csv).1.map rowOfRecord)
  ∧ (loadCSVData csv).links = buildLinks ((papaParse csv).1.map rowOfRecord) := by
  refine ⟨?_, rfl, rfl⟩
  unfold loadCSVData buildNodes
  simp

/-- C7 (counterexample): on an input whose data row has more fields than
the header, the CSV layer records a field-count error, yet the load
returns an ordinary graph containing that row and surfaces nothing; and an
input with no header row is not detected — its first data line is silently
consumed as the header and the load proceeds instead of aborting.  No
MalformedInputError or skipped-row report exists anywhere in the code. -/
theorem malformed_not_reported :
    ¬ (papaParse "A,B\n1,2,3".data).2 = []
      ∧ (loadCSVData "A,B\n1,2,3".data).nodes.length = 1
      ∧ (papaParse "1,X\n2,Y".data).2 = []
      ∧ (loadCSVData "1,X\n2,Y".data).nodes.length = 1 := by
  refine ⟨by decide, by decide, by decide, by decide⟩

/-! Lemmas about the category summary of the description synthesizer. -/

theorem upsert_ne_nil (m : List (Str × Nat)) (k : Str) : upsert m k ≠ [] := by
  cases m with
  | nil => simp [upsert]
  | cons p ps =>
    simp only [upsert]
    by_cases h : p.1 = k <;> simp [h]

theorem upsert_keys (m : List (Str × Nat)) (k : Str) :
    (upsert m k).map Prod.fst
      = if k ∈ m.map Prod.fst then m.map Prod.fst
        else m.map Prod.fst ++ [k] := by
  induction m with
  | nil => simp [upsert]
  | cons p ps ih =>
    by_cases hpk : p.1 = k
    · simp [upsert, hpk]
    · simp only [upsert, if_neg hpk, List.map_cons, ih]
      by_cases hk : k ∈ ps.map Prod.fst
      · simp [hk, fun h : k = p.1 => hpk h.symm]
      · simp only [hk, if_neg, List.mem_cons, false_or, if_false]
        simp [hk]
        rw [if_neg (fun h : k = p.1 => hpk h.symm)]

theorem upsert_keys_nodup (m : List (Str × Nat)) (k : Str)
    (h : (m.map Prod.fst).Nodup) : ((upsert m k).map Prod.fst).Nodup := by
  rw [upsert_keys]
  by_cases hk : k ∈ m.map Prod.fst
  · rw [if_pos hk]
    exact h
  · rw [if_neg hk]
    simp [List.nodup_append, h, hk]

theorem lookupCnt_upsert (m : List (Str × Nat)) (k key : Str) :
    lookupCnt (upsert m k) key
      = lookupCnt m key + (if key = k then 1 else 0) := by
  induction m with
  | nil =>
    simp only [upsert, lookupCnt]
    by_cases h : key = k
    · simp [h]
    · rw [if_neg (fun hh : k = key => h hh.symm), if_neg h]
  | cons p ps ih =>
    by_cases hpk : p.1 = k
    · simp only [upsert, if_pos hpk, lookupCnt]
      by_cases hkey : p.1 = key
      · have hkk : key = k := by rw [← hkey, hpk]
        simp [hkey, hkk]
      · have hkk : ¬ key = k := fun h => hkey (by rw [hpk, h])
        simp [hkey, hkk]
    · simp only [upsert, if_neg hpk, lookupCnt]
      by_cases hkey : p.1 = key
      · have hkk : ¬ key = k := fun hh => hpk (by rw [hkey, hh])
        simp [hkey, hkk]
      · simp [hkey, ih]

theorem lookupCnt_foldl (cats : List Str) : ∀ (m : List (Str × Nat)) (key : Str),
    lookupCnt (cats.foldl upsert m) key = lookupCnt m key + cats.count key := by
  induction cats with
  | nil =>
    intro m key
    simp
  | cons c cs ih =>
    intro m key
    simp only [List.foldl_cons, ih, lookupCnt_upsert, List.count_cons]
    by_cases h : key = c
    · simp [h]
      omega
    · have hb : (key == c) = false := by simp [h]
      have hck : ¬ c = key := fun hh => h hh.symm
      simp [h, hb, hck]

theorem foldl_keys_nodup (cats : List Str) : ∀ (m : List (Str × Nat)),
    (m.map Prod.fst).Nodup → ((cats.foldl upsert m).map Prod.fst).Nodup := by
  induction cats with
  | nil => intro m hm; exact hm
  | cons c cs ih =>
    intro m hm
    exact ih _ (upsert_keys_nodup m c hm)

theorem foldl_vals_pos (cats : List Str) : ∀ (m : List (Str × Nat)),
    (∀ p ∈ m, 0 < p.2) → ∀ p ∈ cats.foldl upsert m, 0 < p.2 := by
  induction cats with
  | nil => intro m hm; exact hm
  | cons c cs ih =>
    intro m hm
    refine ih _ ?_
    intro p hp
    clear ih
    induction m with
    | nil =>
      rcases List.mem_singleton.mp hp with rfl
      simp
    | cons q qs ihm =>
      simp only [upsert] at hp
      by_cases hq : q.1 = c
      · rw [if_pos hq] at hp
        rcases List.mem_cons.mp hp with rfl | hp2
        · have := hm q (List.mem_cons_self q qs)
          simp
        · exact hm _ (List.mem_cons_of_mem q hp2)
      · rw [if_neg hq] at hp
        rcases List.mem_cons.mp hp with rfl | hp2
        · exact hm p (List.mem_cons_self p qs)
        · exact ihm (fun r hr => hm r (List.mem_cons_of_mem q hr)) hp2

theorem foldl_ne_nil (cats : List Str) : ∀ (m : List (Str × Nat)), m ≠ [] →
    cats.foldl upsert m ≠ [] := by
  induction cats with
  | nil => intro m hm; exact hm
  | cons c cs ih => intro m _; exact ih _ (upsert_ne_nil m c)

theorem mem_val_eq_lookup : ∀ (m : List (Str × Nat)),
    (m.map Prod.fst).Nodup → ∀ p ∈ m, p.2 = lookupCnt m p.1 := by
  intro m
  induction m with
  | nil => intro _ p hp; exact absurd hp (List.not_mem_nil p)
  | cons q qs ih =>
    intro hnd p hp
    rcases List.pairwise_cons.mp hnd with ⟨hq, hqs⟩
    rcases List.mem_cons.mp hp with rfl | hp2
    · simp [lookupCnt]
    · have hne : ¬ q.1 = p.1 :=
        hq p.1 (List.mem_map.mpr ⟨p, hp2, rfl⟩)
      simp only [lookupCnt, if_neg hne]
      exact ih hqs p hp2

theorem countCats_eq (edges : List EdgeInfo) :
    countCats edges = (edges.map catOf).foldl upsert [] := by
  unfold countCats
  rw [List.foldl_map]

theorem countCats_spec (edges : List EdgeInfo) :
    ((countCats edges).map Prod.fst).Nodup
  ∧ (∀ p ∈ countCats edges, p.2 = (edges.map catOf).count p.1 ∧ 0 < p.2) := by
  rw [countCats_eq]
  refine ⟨foldl_keys_nodup _ [] (by simp), ?_⟩
  intro p hp
  constructor
  · have h1 := mem_val_eq_lookup _ (foldl_keys_nodup (edges.map catOf) [] (by simp)) p hp
    rw [h1, lookupCnt_foldl]
    simp [lookupCnt]
  · exact foldl_vals_pos _ [] (by simp) p hp

theorem insertIdxAsc_perm (x : Str × Nat) (l : List (Str × Nat)) :
    List.Perm (insertIdxAsc x l) (x :: l) := by
  induction l with
  | nil => exact List.Perm.refl _
  | cons y ys ih =>
    simp only [insertIdxAsc]
    by_cases h : digitsVal x.1 < digitsVal y.1
    · rw [if_pos h]
    · rw [if_neg h]
      exact (ih.cons y).trans (List.Perm.swap x y ys)

theorem sortIdxAsc_perm (l : List (Str × Nat)) : List.Perm (sortIdxAsc l) l := by
  induction l with
  | nil => exact List.Perm.refl _
  | cons x xs ih =>
    simp only [sortIdxAsc, List.foldr_cons]
    exact (insertIdxAsc_perm x _).trans (ih.cons x)

theorem insertCntDesc_perm (x : Str × Nat) (l : List (Str × Nat)) :
    List.Perm (insertCntDesc x l) (x :: l) := by
  induction l with
  | nil => exact List.Perm.refl _
  | cons y ys ih =>
    simp only [insertCntDesc]
    by_cases h : y.2 ≤ x.2
    · rw [if_pos h]
    · rw [if_neg h]
      exact (ih.cons y).trans (List.Perm.swap x y ys)

theorem sortCntDesc_perm (l : List (Str × Nat)) : List.Perm (sortCntDesc l) l := by
  induction l with
  | nil => exact List.Perm.refl _
  | cons x xs ih =>
    simp only [sortCntDesc, List.foldr_cons]
    exact (insertCntDesc_perm x _).trans (ih.cons x)

theorem jsObjEntries_perm (m : List (Str × Nat)) : List.Perm (jsObjEntries m) m := by
  unfold jsObjEntries
  refine List.Perm.trans ?_ (List.filter_append_perm (fun p => isArrayIndexKey p.1) m)
  exact (sortIdxAsc_perm _).append (List.Perm.refl _)

theorem insertCntDesc_sorted (x : Str × Nat) (l : List (Str × Nat))
    (h : List.Pairwise (fun a b : Str × Nat => b.2 ≤ a.2) l) :
    List.Pairwise (fun a b : Str × Nat => b.2 ≤ a.2) (insertCntDesc x l) := by
  induction l with
  | nil => exact List.pairwise_singleton _ x
  | cons y ys ih =>
    rcases List.pairwise_cons.mp h with ⟨h1, h2⟩
    simp only [insertCntDesc]
    by_cases hc : y.2 ≤ x.2
    · rw [if_pos hc]
      refine List.Pairwise.cons ?_ h
      intro z hz
      rcases List.mem_cons.mp hz with rfl | hz
      · exact hc
      · exact le_trans (h1 z hz) hc
    · rw [if_neg hc]
      refine List.Pairwise.cons ?_ (ih h2)
      intro z hz
      rcases List.mem_cons.mp ((insertCntDesc_perm x ys).mem_iff.mp hz) with rfl | hz2
      · omega
      · exact h1 z hz2

theorem sortCntDesc_sorted (l : List (Str × Nat)) :
    List.Pairwise (fun a b : Str × Nat => b.2 ≤ a.2) (sortCntDesc l) := by
  induction l with
  | nil => exact List.Pairwise.nil
  | cons x xs ih =>
    simp only [sortCntDesc, List.foldr_cons]
    exact insertCntDesc_sorted x _ ih

theorem topCats_sorted (edges : List EdgeInfo) :
    List.Pairwise (fun a b : Str × Nat => b.2 ≤ a.2) (topCats edges) :=
  (sortCntDesc_sorted _).sublist (List.take_sublist 3 _)

theorem topCats_subset (edges : List EdgeInfo) :
    ∀ p ∈ topCats edges, p ∈ countCats edges := by
  intro p hp
  have h1 : p ∈ sortCntDesc (jsObjEntries (countCats edges)) :=
    (List.take_sublist 3 _).subset hp
  have h2 := (sortCntDesc_perm _).mem_iff.mp h1
  exact (jsObjEntries_perm _).mem_iff.mp h2

theorem natToChars_ne_nil2 (n : Nat) : natToChars n ≠ [] := natToChars_ne_nil n

theorem jsJoin_ne_nil (sep : Str) (l : List Str) (h1 : l ≠ [])
    (h2 : ∀ x ∈ l, x ≠ []) : jsJoin sep l ≠ [] := by
  cases l with
  | nil => exact absurd rfl h1
  | cons x xs =>
    cases xs with
    | nil => exact h2 x (List.mem_cons_self x [])
    | cons y ys =>
      simp only [jsJoin]
      intro hh
      rcases List.append_eq_nil.mp hh with ⟨hx, _⟩
      rcases List.append_eq_nil.mp hx with ⟨hx2, _⟩
      exact h2 x (List.mem_cons_self x _) hx2

theorem catSummary_ne_nil (edges : List EdgeInfo) (h : edges ≠ []) :
    catSummary edges ≠ [] := by
  unfold catSummary
  have hcc : countCats edges ≠ [] := by
    rw [countCats_eq]
    cases edges with
    | nil => exact absurd rfl h
    | cons e es =>
      simp only [List.map_cons, List.foldl_cons]
      exact foldl_ne_nil _ _ (upsert_ne_nil [] (catOf e))
  have hlen1 : jsObjEntries (countCats edges) ≠ [] := by
    intro hh
    apply hcc
    have hq := (jsObjEntries_perm (countCats edges)).length_eq
    rw [hh] at hq
    exact List.length_eq_zero.mp hq.symm
  have hlen2 : sortCntDesc (jsObjEntries (countCats edges)) ≠ [] := by
    intro hh
    apply hlen1
    have hq := (sortCntDesc_perm (jsObjEntries (countCats edges))).length_eq
    rw [hh] at hq
    exact List.length_eq_zero.mp hq.symm
  have htop : topCats edges ≠ [] := by
    unfold topCats
    cases hC : sortCntDesc (jsObjEntries (countCats edges)) with
    | nil => exact absurd hC hlen2
    | cons c cs => simp
  refine jsJoin_ne_nil _ _ ?_ ?_
  · intro hh
    exact htop (List.map_eq_nil.mp hh)
  · intro x hx
    rcases List.mem_map.mp hx with ⟨p, _, rfl⟩
    unfold renderCat
    intro hh
    rcases List.append_eq_nil.mp hh with ⟨_, h2⟩
    exact List.cons_ne_nil _ _ h2

/-- C9 (amended): the primary-connections summary is computed over the
combined outgoing-then-incoming entries with every uncategorized neighbor
counted under the fallback category Other, so it is present whenever the
neighborhood is non-empty (never omitted); the selected pairs are the top
three of a stable descending sort by count applied to the JavaScript
object-entry order (integer-like category names first in ascending numeric
order, then the remaining categories in first-seen order), each selected
count being exactly the number of entries of that category. -/
theorem category_summary (ne : List EdgeInfo)
    (hdir : ∀ e ∈ ne, e.direction = toDir ∨ e.direction = fromDir) :
    (catSummary (ne.filter (fun e => e.direction == toDir)
        ++ ne.filter (fun e => e.direction == fromDir)) = [] ↔ ne = [])
  ∧ List.Pairwise (fun a b : Str × Nat => b.2 ≤ a.2)
      (topCats (ne.filter (fun e => e.direction == toDir)
        ++ ne.filter (fun e => e.direction == fromDir)))
  ∧ (∀ p ∈ topCats (ne.filter (fun e => e.direction == toDir)
        ++ ne.filter (fun e => e.direction == fromDir)),
      p.2 = (((ne.filter (fun e => e.direction == toDir)
        ++ ne.filter (fun e => e.direction == fromDir)).map catOf).count p.1)
      ∧ 0 < p.2)
  ∧ (topCats (ne.filter (fun e => e.direction == toDir)
        ++ ne.filter (fun e => e.direction == fromDir))).length ≤ 3
  ∧ (∀ node : Node, ne ≠ [] → ∃ pre,
      generateEnhancedDescription node ne
        = pre ++ ("Primary connections include: ".data
            ++ catSummary (ne.filter (fun e => e.direction == toDir)
                ++ ne.filter (fun e => e.direction == fromDir)) ++ ".".data)) := by
  have hboth_ne : ne ≠ [] →
      ne.filter (fun e => e.direction == toDir)
        ++ ne.filter (fun e => e.direction == fromDir) ≠ [] := by
    intro h hh
    rcases List.append_eq_nil.mp hh with ⟨h1, h2⟩
    cases ne with
    | nil => exact h rfl
    | cons e es =>
      rcases hdir e (List.mem_cons_self e es) with hd | hd
      · have hme : e ∈ (e :: es).filter (fun e => e.direction == toDir) :=
          List.mem_filter.mpr ⟨List.mem_cons_self e es, by simp [hd]⟩
        rw [h1] at hme
        exact List.not_mem_nil e hme
      · have hme : e ∈ (e :: es).filter (fun e => e.direction == fromDir) :=
          List.mem_filter.mpr ⟨List.mem_cons_self e es, by simp [hd]⟩
        rw [h2] at hme
        exact List.not_mem_nil e hme
  refine ⟨?_, topCats_sorted _, ?_, ?_, ?_⟩
  · constructor
    · intro hcs
      by_contra hne
      exact catSummary_ne_nil _ (hboth_ne hne) hcs
    · rintro rfl
      decide
  · intro p hp
    have hm := topCats_subset _ p hp
    exact ⟨((countCats_spec _).2 p hm).1, ((countCats_spec _).2 p hm).2⟩
  · unfold topCats
    exact List.length_take_le 3 _
  · intro node hne
    have hb := hboth_ne hne
    have hcond : 0 < (ne.filter (fun e => e.direction == toDir)).length
        ∨ 0 < (ne.filter (fun e => e.direction == fromDir)).length := by
      by_contra hcon
      push_neg at hcon
      apply hb
      have h1 : ne.filter (fun e => e.direction == toDir) = [] :=
        List.length_eq_zero.mp (Nat.le_zero.mp hcon.1)
      have h2 : ne.filter (fun e => e.direction == fromDir) = [] :=
        List.length_eq_zero.mp (Nat.le_zero.mp hcon.2)
      rw [h1, h2]
      rfl
    have hcs : ¬ catSummary (ne.filter (fun e => e.direction == toDir)
        ++ ne.filter (fun e => e.direction == fromDir)) = [] :=
      catSummary_ne_nil _ hb
    simp only [generateEnhancedDescription]
    rw [if_pos hcond, if_neg hcs]
    exact ⟨_, rfl⟩

/-- C9 (witness): applying the amended summary theorem at a concrete
two-entry neighborhood and reading off the top-three length bound. -/
theorem category_summary_witness :
    (topCats ([exEdgeCat10, exEdgeCat2].filter (fun e => e.direction == toDir)
        ++ [exEdgeCat10, exEdgeCat2].filter (fun e => e.direction == fromDir))).length
      ≤ 3 :=
  (category_summary [exEdgeCat10, exEdgeCat2] (by decide)).2.2.2.1

/-- C9 (counterexample): with a single neighbor that has no category, the
summary is not omitted — the neighbor is counted under Other and the
description ends with the summary 1 Other, contradicting the claimed
omission when no categorized neighbors exist; and for two tied
integer-like categories first seen in the order 10, 2, the rendered
summary is 1 2, 1 10 (JavaScript object key order puts integer-like keys
in ascending numeric order), not the first-seen order 1 10, 1 2 the claim
requires. -/
theorem category_summary_counterexample :
    catSummary [exEdgeNoCat] = "1 Other".data
      ∧ generateEnhancedDescription exNode1 [exEdgeNoCat]
          = ("d1\n\n**Strategic Relevance:** rv1\n\n**Network Position:** Alpha projects influence toward 1 entities. Primary connections include: 1 Other.").data
      ∧ catSummary [exEdgeCat10, exEdgeCat2] = "1 2, 1 10".data
      ∧ ¬ catSummary [exEdgeCat10, exEdgeCat2] = "1 10, 1 2".data := by
  refine ⟨by decide, by decide, by decide, by decide⟩

end Raft
